import Mathlib

/-!
Verification of the bpm tap-tempo core (src/bpm.rs and the TapData session
state machine of src/main.rs) against its specification.

Modelling conventions of this shallow embedding:
* Rust `u64` offsets are modelled as `Nat`.  The `u64` subtractions in the
  source (`end - start`, `x2 - x1`) are modelled by truncated `Nat`
  subtraction; on the in-contract inputs (non-decreasing offset sequences)
  the two semantics coincide, since the minuend is then never smaller than
  the subtrahend.  Overflow of `u64` accumulators is outside the model.
* Rust `f64` is modelled by the type `F`: an exact rational together with
  the IEEE special values `posInf`, `negInf` and `nan`.  Finite arithmetic
  is exact (rounding is outside the model); the special values are produced
  and propagated by `F.div` and `F.mul` following IEEE semantics, which is
  what the claims about degenerate inputs are about.
* `Instant` timestamps are modelled as `Nat` milliseconds;
  `Instant::duration_since` saturates at zero, as does `Nat` subtraction.
* `select_nth_unstable_by(mid, total_cmp)` returns the element of rank
  `mid` in the `total_cmp` order; it is modelled as indexing the list
  sorted by `Fle` (the `total_cmp` less-or-equal, a total antisymmetric
  order on the model) at position `mid`.
-/

/-- Model of `f64`: exact rationals plus the IEEE special values.
The sign of `nan` and of zero is not modelled; neither is observed by the
program under verification. -/
inductive F where
  | fin : ℚ → F
  | posInf : F
  | negInf : F
  | nan : F
deriving DecidableEq

/-- IEEE division on the `f64` model.  A nonzero finite numerator over zero
gives a signed infinity, `0 / 0` gives `nan`. -/
def F.div : F → F → F
  | .fin a, .fin b =>
      if b = 0 then
        if a = 0 then .nan else if 0 < a then .posInf else .negInf
      else .fin (a / b)
  | .nan, _ => .nan
  | _, .nan => .nan
  | .posInf, .posInf => .nan
  | .posInf, .negInf => .nan
  | .negInf, .posInf => .nan
  | .negInf, .negInf => .nan
  | .posInf, .fin b => if 0 ≤ b then .posInf else .negInf
  | .negInf, .fin b => if 0 ≤ b then .negInf else .posInf
  | .fin _, .posInf => .fin 0
  | .fin _, .negInf => .fin 0

/-- IEEE multiplication on the `f64` model. -/
def F.mul : F → F → F
  | .fin a, .fin b => .fin (a * b)
  | .nan, _ => .nan
  | _, .nan => .nan
  | .posInf, .posInf => .posInf
  | .posInf, .negInf => .negInf
  | .negInf, .posInf => .negInf
  | .negInf, .negInf => .posInf
  | .posInf, .fin b => if b = 0 then .nan else if 0 < b then .posInf else .negInf
  | .fin a, .posInf => if a = 0 then .nan else if 0 < a then .posInf else .negInf
  | .negInf, .fin b => if b = 0 then .nan else if 0 < b then .negInf else .posInf
  | .fin a, .negInf => if a = 0 then .nan else if 0 < a then .negInf else .posInf

/-- The less-or-equal of `f64::total_cmp`, restricted to the values the
model distinguishes: `negInf` below all finite values below `posInf` below
`nan`.  (`total_cmp` puts the positive `nan` payloads at the top; the
program only ever compares slopes, which are never `nan`.) -/
def fle : F → F → Bool
  | .nan, .nan => true
  | .nan, _ => false
  | _, .nan => true
  | .negInf, _ => true
  | _, .negInf => false
  | .posInf, .posInf => true
  | .fin _, .posInf => true
  | .posInf, .fin _ => false
  | .fin a, .fin b => a ≤ b

/-- `fle` as a decidable relation, for the sorting model. -/
def Fle (a b : F) : Prop := fle a b = true

instance : DecidableRel Fle := fun _ _ => inferInstanceAs (Decidable (_ = true))

/-- The single error kind of the estimators (enum `BpmCalculationError`). -/
inductive BpmCalculationError where
  | insufficientData : BpmCalculationError
deriving DecidableEq

/-- `Result<f64, BpmCalculationError>`. -/
inductive BpmResult where
  | ok : F → BpmResult
  | error : BpmCalculationError → BpmResult
deriving DecidableEq

/-- `iter().enumerate()` starting at index `k`. -/
def enumerate (k : ℕ) : List α → List (ℕ × α)
  | [] => []
  | x :: xs => (k, x) :: enumerate (k + 1) xs

/-- `Itertools::tuple_combinations` for pairs: every element paired with
every later element, in iterator order. -/
def tupleCombinations : List α → List (α × α)
  | [] => []
  | x :: xs => xs.map (fun y => (x, y)) ++ tupleCombinations xs

/-- The fold body of `simple_regression`:
`|(sx, sxx, sxy), (y, x)| (sx + x, sxx + x*x, sxy + y*x)`. -/
def regStep (s : ℕ × ℕ × ℕ) (p : ℕ × ℕ) : ℕ × ℕ × ℕ :=
  (s.1 + p.2, s.2.1 + p.2 * p.2, s.2.2 + p.1 * p.2)

/-- `bpm::direct_count`. -/
def direct_count (offsets : List ℕ) : BpmResult :=
  if offsets.length < 2 then .error .insufficientData
  else
    let start := offsets.headD 0
    let stop := offsets.getLastD 0
    let delta := stop - start
    let count : ℚ := (offsets.length - 1 : ℕ)
    .ok (F.div (.fin (count * 60000)) (.fin (delta : ℚ)))

/-- `bpm::simple_regression`. -/
def simple_regression (offsets : List ℕ) : BpmResult :=
  if offsets.length < 2 then .error .insufficientData
  else
    let t := (enumerate 0 offsets).foldl regStep (0, 0, 0)
    let n : ℚ := offsets.length
    let mean_x : ℚ := (t.1 : ℚ) / n
    let mean_y : ℚ := (n - 1) / 2
    let slope := F.div (.fin ((t.2.2 : ℚ) - n * mean_x * mean_y))
                       (.fin ((t.2.1 : ℚ) - n * mean_x * mean_x))
    .ok (slope.mul (.fin 60000))

/-- The pairwise slope list built inside `thiel_sen`:
`(y2 - y1) as f64 / (x2 - x1) as f64` over all index pairs `i < j`. -/
def slopesOf (offsets : List ℕ) : List F :=
  (tupleCombinations (enumerate 0 offsets)).map
    (fun pq => F.div (.fin ((pq.2.1 - pq.1.1 : ℕ) : ℚ))
                     (.fin ((pq.2.2 - pq.1.2 : ℕ) : ℚ)))

/-- The slope list of `thiel_sen` sorted in `total_cmp` order: the order
statistics that `select_nth_unstable_by` selects from. -/
def sortedSlopes (offsets : List ℕ) : List F :=
  (slopesOf offsets).insertionSort Fle

/-- `bpm::thiel_sen`. -/
def thiel_sen (offsets : List ℕ) : BpmResult :=
  if offsets.length < 2 then .error .insufficientData
  else
    let slopes := slopesOf offsets
    let mid := slopes.length / 2
    let median := (sortedSlopes offsets).getD mid .nan
    .ok (median.mul (.fin 60000))

/-- Spec-side sum `Σ x_i` over the offsets. -/
def sumX : List ℕ → ℕ
  | [] => 0
  | x :: xs => x + sumX xs

/-- Spec-side sum `Σ x_i²` over the offsets. -/
def sumXX : List ℕ → ℕ
  | [] => 0
  | x :: xs => x * x + sumXX xs

/-- Spec-side indexed sum `Σ (k+i)·x_i` over the offsets. -/
def sxyAux (k : ℕ) : List ℕ → ℕ
  | [] => 0
  | x :: xs => k * x + sxyAux (k + 1) xs

/-- Spec-side sum `Σ i·x_i` over the offsets. -/
def sumXY (xs : List ℕ) : ℕ := sxyAux 0 xs

/-- The regression slope written exactly as the spec states it:
`(Σ i*x_i − n·mean_x·mean_y) / (Σ x_i² − n·mean_x²)` with
`mean_x = mean(offsets)` and `mean_y = (n−1)/2`. -/
def specSlope (xs : List ℕ) : F :=
  let n : ℚ := xs.length
  let mean_x : ℚ := (sumX xs : ℚ) / n
  let mean_y : ℚ := (n - 1) / 2
  F.div (.fin ((sumXY xs : ℚ) - n * mean_x * mean_y))
        (.fin ((sumXX xs : ℚ) - n * mean_x * mean_x))

/-- Perfectly regular taps at interval `d` ms: `[0, d, 2d, …, (n-1)d]`. -/
def regular (d n : ℕ) : List ℕ := (List.range n).map (fun i => i * d)

/-- The Tap Session state (struct `TapData` of src/main.rs): `start` is the
session origin `Option<Instant>`, `timestamps` the offset sequence. -/
structure TapData where
  start : Option ℕ
  timestamps : List ℕ
deriving DecidableEq

/-- `TapData::record`: appends `now.duration_since(start)` when a session
is active, otherwise seeds a fresh session `[0]` with origin `now`. -/
def TapData.record (d : TapData) (now : ℕ) : TapData :=
  match d.start with
  | some s => { d with timestamps := d.timestamps ++ [now - s] }
  | none => { start := some now, timestamps := [0] }

/-- `TapData::is_reset`: `start.is_none() && !timestamps.is_empty()`. -/
def TapData.is_reset (d : TapData) : Bool :=
  d.start.isNone && !d.timestamps.isEmpty

/-- The inactivity-timeout body of `handle_beat_input`, which sets
`tap_data.start = None` and leaves the timestamps in place. -/
def TapData.clear_origin (d : TapData) : TapData :=
  { d with start := none }

/-- The empty session (`TapData::default`). -/
def TapData.empty : TapData := { start := none, timestamps := [] }

/-- One external stimulus of the session: a tap at absolute time `t`, or
the inactivity timer clearing the origin. -/
inductive Ev where
  | record : ℕ → Ev
  | clear : Ev

/-- Apply one stimulus to the session. -/
def stepEv (d : TapData) : Ev → TapData
  | .record t => d.record t
  | .clear => d.clear_origin

/-- Run the session from state `d` through a stimulus trace. -/
def runFrom (d : TapData) : List Ev → TapData
  | [] => d
  | e :: es => runFrom (stepEv d e) es

/-- The absolute tap times of a trace, in order. -/
def recordTimes : List Ev → List ℕ
  | [] => []
  | .record t :: es => t :: recordTimes es
  | .clear :: es => recordTimes es

/-- The last absolute tap time after a trace, given the last one before it. -/
def lastTime (l : Option ℕ) : List Ev → Option ℕ
  | [] => l
  | .record t :: es => lastTime (some t) es
  | .clear :: es => lastTime l es

/-- Prepend an optional element. -/
def optCons : Option ℕ → List ℕ → List ℕ
  | none, xs => xs
  | some l, xs => l :: xs

/-- Session invariant tying the state to the last absolute tap time:
the offsets are non-decreasing, and while the origin is set the offsets
start at 0 and end at the offset of the last tap. -/
def SessionInv (d : TapData) (last : Option ℕ) : Prop :=
  List.Chain' (· ≤ ·) d.timestamps ∧
  ∀ s, d.start = some s → ∃ l, last = some l ∧ s ≤ l ∧
    d.timestamps.head? = some 0 ∧ d.timestamps.getLast? = some (l - s)

/-- A model float that is a positive rational or positive infinity. -/
def PosOrInf (v : F) : Prop := (∃ q, v = .fin q ∧ 0 < q) ∨ v = .posInf

/-! Helper lemmas: the regression fold computes the three spec sums. -/

lemma foldl_regStep (xs : List ℕ) : ∀ (k a b c : ℕ),
    (enumerate k xs).foldl regStep (a, b, c) = (a + sumX xs, b + sumXX xs, c + sxyAux k xs) := by
  induction xs with
  | nil => intro k a b c; simp [enumerate, sumX, sumXX, sxyAux]
  | cons x xs ih =>
    intro k a b c
    simp only [enumerate, sumX, sumXX, sxyAux, List.foldl_cons, regStep, ih]
    refine congrArg₂ _ (by ring) (congrArg₂ _ (by ring) (by ring))

lemma simple_regression_eq_spec {xs : List ℕ} (h : 2 ≤ xs.length) :
    simple_regression xs = .ok ((specSlope xs).mul (.fin 60000)) := by
  have h' : ¬ xs.length < 2 := by omega
  simp only [simple_regression, specSlope, if_neg h', foldl_regStep, sumXY, Nat.zero_add]

/-! Helper lemmas: membership structure of the pairwise slope list. -/

lemma length_enumerate (xs : List α) : ∀ k, (enumerate k xs).length = xs.length := by
  induction xs with
  | nil => intro k; rfl
  | cons x xs ih => intro k; simp [enumerate, ih]

lemma getElem?_enumerate (xs : List α) : ∀ (k i : ℕ),
    (enumerate k xs)[i]? = xs[i]?.map (fun x => (k + i, x)) := by
  induction xs with
  | nil => intro k i; simp [enumerate]
  | cons x xs ih =>
    intro k i
    cases i with
    | zero => simp [enumerate]
    | succ i =>
      simp only [enumerate, List.getElem?_cons_succ, ih]
      have : k + 1 + i = k + (i + 1) := by omega
      rw [this]

lemma mem_tupleCombinations {l : List α} {p q : α} :
    (p, q) ∈ tupleCombinations l ↔
      ∃ i j : ℕ, i < j ∧ l[i]? = some p ∧ l[j]? = some q := by
  induction l with
  | nil => simp [tupleCombinations]
  | cons x xs ih =>
    constructor
    · intro hmem
      rcases List.mem_append.1 hmem with hmap | hrec
      · rcases List.mem_map.1 hmap with ⟨y, hy, heq⟩
        obtain ⟨j, hj⟩ := List.mem_iff_getElem?.1 hy
        obtain ⟨hx, hyq⟩ := Prod.mk.injEq .. ▸ heq
        exact ⟨0, j + 1, Nat.succ_pos j, by simp [hx], by simpa [hyq] using hj⟩
      · obtain ⟨i, j, hij, hp, hq⟩ := ih.1 hrec
        exact ⟨i + 1, j + 1, by omega, by simpa using hp, by simpa using hq⟩
    · rintro ⟨i, j, hij, hp, hq⟩
      cases j with
      | zero => omega
      | succ j =>
        cases i with
        | zero =>
          refine List.mem_append.2 (Or.inl (List.mem_map.2 ⟨q, ?_, ?_⟩))
          · exact List.mem_iff_getElem?.2 ⟨j, by simpa using hq⟩
          · simp at hp
            rw [hp]
        | succ i =>
          exact List.mem_append.2
            (Or.inr (ih.2 ⟨i, j, by omega, by simpa using hp, by simpa using hq⟩))

lemma mem_slopesOf {xs : List ℕ} {s : F} :
    s ∈ slopesOf xs ↔ ∃ i j a b, i < j ∧ xs[i]? = some a ∧ xs[j]? = some b ∧
      s = F.div (.fin ((j - i : ℕ) : ℚ)) (.fin ((b - a : ℕ) : ℚ)) := by
  simp only [slopesOf, List.mem_map]
  constructor
  · rintro ⟨⟨p, q⟩, hm, rfl⟩
    obtain ⟨i, j, hij, hp, hq⟩ := mem_tupleCombinations.1 hm
    rw [getElem?_enumerate] at hp hq
    obtain ⟨a, ha, hpa⟩ := Option.map_eq_some'.1 hp
    obtain ⟨b, hb, hqb⟩ := Option.map_eq_some'.1 hq
    refine ⟨i, j, a, b, hij, ha, hb, ?_⟩
    rw [← hpa, ← hqb]
    simp
  · rintro ⟨i, j, a, b, hij, ha, hb, rfl⟩
    refine ⟨((i, a), (j, b)), mem_tupleCombinations.2 ⟨i, j, hij, ?_, ?_⟩, rfl⟩
    · rw [getElem?_enumerate, ha]; simp
    · rw [getElem?_enumerate, hb]; simp

lemma slopesOf_ne_nil {xs : List ℕ} (h : 2 ≤ xs.length) : slopesOf xs ≠ [] := by
  match xs, h with
  | x :: y :: rest, _ => simp [slopesOf, enumerate, tupleCombinations]

lemma length_sortedSlopes (xs : List ℕ) :
    (sortedSlopes xs).length = (slopesOf xs).length :=
  (List.perm_insertionSort _ _).length_eq

lemma mem_sortedSlopes {xs : List ℕ} {s : F} :
    s ∈ sortedSlopes xs ↔ s ∈ slopesOf xs :=
  (List.perm_insertionSort _ _).mem_iff

lemma thiel_sen_eq {xs : List ℕ} (h : 2 ≤ xs.length) :
    thiel_sen xs =
      .ok (((sortedSlopes xs).getD ((slopesOf xs).length / 2) .nan).mul (.fin 60000)) := by
  have h' : ¬ xs.length < 2 := by omega
  simp only [thiel_sen, if_neg h']

lemma median_mem_slopesOf {xs : List ℕ} (h : 2 ≤ xs.length) :
    (sortedSlopes xs).getD ((slopesOf xs).length / 2) .nan ∈ slopesOf xs := by
  have hlen : 0 < (slopesOf xs).length := List.length_pos.2 (slopesOf_ne_nil h)
  have hmid : (slopesOf xs).length / 2 < (sortedSlopes xs).length := by
    rw [length_sortedSlopes]
    exact Nat.div_lt_self hlen (by norm_num)
  rw [List.getD_eq_getElem _ _ hmid]
  exact mem_sortedSlopes.1 (List.getElem_mem _)

/-! Helper lemmas: the spec sums on appended lists and on regular data. -/

lemma sumX_append (l₁ l₂ : List ℕ) : sumX (l₁ ++ l₂) = sumX l₁ + sumX l₂ := by
  induction l₁ with
  | nil => simp [sumX]
  | cons x xs ih => simp [sumX, ih]; ring

lemma sumXX_append (l₁ l₂ : List ℕ) : sumXX (l₁ ++ l₂) = sumXX l₁ + sumXX l₂ := by
  induction l₁ with
  | nil => simp [sumXX]
  | cons x xs ih => simp [sumXX, ih]; ring

lemma sxyAux_append (l₁ l₂ : List ℕ) : ∀ k,
    sxyAux k (l₁ ++ l₂) = sxyAux k l₁ + sxyAux (k + l₁.length) l₂ := by
  induction l₁ with
  | nil => intro k; simp [sxyAux]
  | cons x xs ih =>
    intro k
    simp only [List.cons_append, sxyAux, List.length_cons, List.append_eq]
    rw [ih (k + 1), show k + 1 + xs.length = k + (xs.length + 1) from by omega]
    ring

lemma length_regular (d n : ℕ) : (regular d n).length = n := by
  simp [regular]

lemma regular_succ (d n : ℕ) : regular d (n + 1) = regular d n ++ [n * d] := by
  simp [regular, List.range_succ]

lemma sumX_regular (d : ℕ) : ∀ n : ℕ, (sumX (regular d n) : ℚ) = d * n * (n - 1) / 2 := by
  intro n
  induction n with
  | zero => simp [regular, sumX]
  | succ n ih =>
    rw [regular_succ, sumX_append]
    push_cast
    rw [show ((sumX (regular d n) : ℕ) : ℚ) = d * n * (n - 1) / 2 by exact_mod_cast ih]
    simp [sumX]
    ring

lemma sumXX_regular (d : ℕ) : ∀ n : ℕ,
    (sumXX (regular d n) : ℚ) = d ^ 2 * (n * (n - 1) * (2 * n - 1)) / 6 := by
  intro n
  induction n with
  | zero => simp [regular, sumXX]
  | succ n ih =>
    rw [regular_succ, sumXX_append]
    push_cast
    rw [show ((sumXX (regular d n) : ℕ) : ℚ) = d ^ 2 * (n * (n - 1) * (2 * n - 1)) / 6 from
      by exact_mod_cast ih]
    simp [sumXX]
    ring

lemma sumXY_regular (d : ℕ) : ∀ n : ℕ,
    (sumXY (regular d n) : ℚ) = d * (n * (n - 1) * (2 * n - 1)) / 6 := by
  intro n
  induction n with
  | zero => simp [regular, sumXY, sxyAux]
  | succ n ih =>
    rw [sumXY, regular_succ, sxyAux_append]
    push_cast
    rw [show ((sxyAux 0 (regular d n) : ℕ) : ℚ) = d * (n * (n - 1) * (2 * n - 1)) / 6 from
      by exact_mod_cast ih]
    simp [sxyAux, length_regular]
    ring

lemma specSlope_regular {d n : ℕ} (hd : 0 < d) (hn : 2 ≤ n) :
    specSlope (regular d n) = .fin (1 / d) := by
  have hnq : (2 : ℚ) ≤ (n : ℚ) := by exact_mod_cast hn
  have hdq : (0 : ℚ) < (d : ℚ) := by exact_mod_cast hd
  have hn0 : (n : ℚ) ≠ 0 := by linarith
  have hX : (0 : ℚ) < (n : ℚ) * ((n : ℚ) - 1) * ((n : ℚ) + 1) / 12 := by
    apply div_pos _ (by norm_num)
    apply mul_pos (mul_pos (by linarith) (by linarith)) (by linarith)
  simp only [specSlope, length_regular, sumX_regular, sumXY_regular, sumXX_regular]
  have hnum : (d : ℚ) * (n * (n - 1) * (2 * n - 1)) / 6 -
      n * ((d : ℚ) * n * (n - 1) / 2 / n) * ((n - 1) / 2) =
      d * ((n : ℚ) * (n - 1) * (n + 1) / 12) := by
    field_simp
    ring
  have hden : (d : ℚ) ^ 2 * (n * (n - 1) * (2 * n - 1)) / 6 -
      n * ((d : ℚ) * n * (n - 1) / 2 / n) * ((d : ℚ) * n * (n - 1) / 2 / n) =
      d ^ 2 * ((n : ℚ) * (n - 1) * (n + 1) / 12) := by
    field_simp
    ring
  rw [hnum, hden]
  have hbne : (d : ℚ) ^ 2 * ((n : ℚ) * (n - 1) * (n + 1) / 12) ≠ 0 := by positivity
  simp only [F.div, if_neg hbne]
  congr 1
  rw [div_eq_div_iff hbne (ne_of_gt hdq)]
  ring

lemma getElem?_regular (d n i : ℕ) :
    (regular d n)[i]? = if i < n then some (i * d) else none := by
  have hr : (List.range n)[i]? = if i < n then some i else none := by
    by_cases h : i < n
    · simp [List.getElem?_range, h]
    · have hle : (List.range n).length ≤ i := by simpa [List.length_range] using not_lt.1 h
      simp [h, List.getElem?_eq_none hle]
  simp only [regular, List.getElem?_map, hr]
  by_cases h : i < n <;> simp [h]

lemma head_regular (d n : ℕ) (hn : 0 < n) : (regular d n).headD 0 = 0 := by
  obtain ⟨m, rfl⟩ : ∃ m, n = m + 1 := ⟨n - 1, by omega⟩
  cases m with
  | zero => simp [regular, List.range_succ]
  | succ m =>
    simp [regular, List.range_succ_eq_map]

lemma getLast_regular (d n : ℕ) (hn : 0 < n) :
    (regular d n).getLastD 0 = (n - 1) * d := by
  obtain ⟨m, rfl⟩ : ∃ m, n = m + 1 := ⟨n - 1, by omega⟩
  rw [regular_succ, List.getLastD_eq_getLast?, List.getLast?_concat]
  simp

lemma getD_eq_of_all_eq {l : List F} {c e : F} (h : ∀ x ∈ l, x = c) {i : ℕ}
    (hi : i < l.length) : l.getD i e = c := by
  rw [List.getD_eq_getElem _ _ hi]
  exact h _ (List.getElem_mem _)

/-! Helper lemmas: preservation of the session invariant. -/

lemma sessionInv_record {d : TapData} {last : Option ℕ} {t : ℕ}
    (hinv : SessionInv d last) (hle : ∀ l, last = some l → l ≤ t) :
    SessionInv (d.record t) (some t) := by
  obtain ⟨hchain, hstart⟩ := hinv
  cases hs : d.start with
  | none =>
    refine ⟨by simp [TapData.record, hs], ?_⟩
    intro s hsome
    simp only [TapData.record, hs, Option.some.injEq] at hsome
    subst hsome
    exact ⟨t, rfl, le_refl t, by simp [TapData.record, hs], by simp [TapData.record, hs]⟩
  | some s0 =>
    obtain ⟨l, hl, hsl, hhead, hlast⟩ := hstart s0 hs
    have hlt : l ≤ t := hle l hl
    have hne : d.timestamps ≠ [] := by
      intro h
      rw [h] at hhead
      simp at hhead
    refine ⟨?_, ?_⟩
    · simp only [TapData.record, hs]
      rw [List.chain'_append]
      refine ⟨hchain, List.chain'_singleton _, ?_⟩
      intro x hx y hy
      rw [hlast] at hx
      simp only [Option.mem_def, Option.some.injEq, List.head?_cons] at hx hy
      subst hx
      subst hy
      exact Nat.sub_le_sub_right hlt s0
    · intro s hsome
      simp only [TapData.record, hs, Option.some.injEq] at hsome ⊢
      subst hsome
      refine ⟨t, rfl, le_trans hsl hlt, ?_, List.getLast?_concat _⟩
      rw [List.head?_append_of_ne_nil _ hne]
      exact hhead

lemma sessionInv_clear {d : TapData} {last : Option ℕ} (hinv : SessionInv d last) :
    SessionInv d.clear_origin last := by
  obtain ⟨hchain, _⟩ := hinv
  refine ⟨hchain, ?_⟩
  intro s h
  simp [TapData.clear_origin] at h

lemma runFrom_inv : ∀ (tr : List Ev) (d : TapData) (last : Option ℕ),
    SessionInv d last →
    List.Chain' (· ≤ ·) (optCons last (recordTimes tr)) →
    SessionInv (runFrom d tr) (lastTime last tr) := by
  intro tr
  induction tr with
  | nil => intro d last hinv _; exact hinv
  | cons e es ih =>
    intro d last hinv hchain
    cases e with
    | record t =>
      simp only [recordTimes] at hchain
      have hle : ∀ l, last = some l → l ≤ t := by
        intro l hl
        rw [hl] at hchain
        simp only [optCons] at hchain
        exact (List.chain'_cons.1 hchain).1
      have hchain' : List.Chain' (· ≤ ·) (optCons (some t) (recordTimes es)) := by
        cases last with
        | none => exact hchain
        | some l =>
          simp only [optCons] at hchain ⊢
          exact (List.chain'_cons.1 hchain).2
      exact ih _ _ (sessionInv_record hinv hle) hchain'
    | clear =>
      exact ih _ _ (sessionInv_clear hinv) hchain

lemma timestamps_ne_nil_step {d : TapData} (e : Ev) (h : d.timestamps ≠ []) :
    (stepEv d e).timestamps ≠ [] := by
  cases e with
  | record t => cases hs : d.start <;> simp [stepEv, TapData.record, hs]
  | clear => simpa [stepEv, TapData.clear_origin] using h

lemma timestamps_ne_nil_runFrom : ∀ (tr : List Ev) (d : TapData),
    d.timestamps ≠ [] → (runFrom d tr).timestamps ≠ [] := by
  intro tr
  induction tr with
  | nil => intro d h; exact h
  | cons e es ih => intro d h; exact ih _ (timestamps_ne_nil_step e h)

lemma recordTimes_nil_of_empty : ∀ (tr : List Ev) (d : TapData),
    (runFrom d tr).timestamps = [] → recordTimes tr = [] := by
  intro tr
  induction tr with
  | nil => intro d _; rfl
  | cons e es ih =>
    intro d hrun
    cases e with
    | record t =>
      exfalso
      have hne : (stepEv d (.record t)).timestamps ≠ [] := by
        cases hs : d.start <;> simp [stepEv, TapData.record, hs]
      exact timestamps_ne_nil_runFrom es _ hne hrun
    | clear => exact ih _ hrun

/-! Helper lemmas: replicated (all-identical) offsets. -/

lemma sumX_replicate (c : ℕ) : ∀ n, sumX (List.replicate n c) = n * c := by
  intro n
  induction n with
  | zero => simp [sumX]
  | succ n ih => simp [List.replicate_succ, sumX, ih]; ring

lemma sumXX_replicate (c : ℕ) : ∀ n, sumXX (List.replicate n c) = n * (c * c) := by
  intro n
  induction n with
  | zero => simp [sumXX]
  | succ n ih => simp [List.replicate_succ, sumXX, ih]; ring

lemma sxyAux_replicate (c : ℕ) : ∀ (n k : ℕ),
    (sxyAux k (List.replicate n c) : ℚ) = c * (k * n + n * (n - 1) / 2) := by
  intro n
  induction n with
  | zero => intro k; simp [sxyAux]
  | succ n ih =>
    intro k
    simp only [List.replicate_succ, sxyAux]
    push_cast
    rw [ih (k + 1)]
    push_cast
    ring

lemma mul_posOrInf {s : F} (h : PosOrInf s) : PosOrInf (s.mul (.fin 60000)) := by
  rcases h with ⟨q, rfl, hq⟩ | rfl
  · exact Or.inl ⟨q * 60000, rfl, by positivity⟩
  · right
    norm_num [F.mul]

/-! Helper lemmas: evaluation of the float model's operations. -/

lemma F.div_fin_fin {a b : ℚ} (hb : b ≠ 0) : F.div (.fin a) (.fin b) = .fin (a / b) := by
  simp only [F.div, if_neg hb]

lemma F.div_pos_zero {q : ℚ} (hq : 0 < q) : F.div (.fin q) (.fin 0) = .posInf := by
  simp [F.div, hq, hq.ne']

lemma F.div_zero_zero : F.div (.fin 0) (.fin 0) = .nan := by
  simp [F.div]

lemma F.mul_fin_fin (a b : ℚ) : F.mul (.fin a) (.fin b) = .fin (a * b) := rfl

lemma F.mul_posInf_60000 : F.mul .posInf (.fin 60000) = .posInf := by
  norm_num [F.mul]

lemma F.mul_nan_fin (b : ℚ) : F.mul .nan (.fin b) = .nan := rfl

lemma posOrInf_ne_nan {v : F} (h : PosOrInf v) : v ≠ .nan := by
  rcases h with ⟨q, rfl, _⟩ | rfl <;> simp

/-! The claims. -/

/-- C1 counterexample: on offsets `[0, 500, 1000]` the code returns
`Ok 120`, which is `60000` times the spec's slope `(1/500)`, not `60000`
divided by it (`30000000`): the claim's `BPM = 60000 / slope` direction is
wrong for the code. -/
theorem C1_counterexample :
    simple_regression [0, 500, 1000] = .ok (.fin 120) ∧
    F.div (.fin 60000) (specSlope [0, 500, 1000]) = .fin 30000000 ∧
    simple_regression [0, 500, 1000] ≠
      .ok (F.div (.fin 60000) (specSlope [0, 500, 1000])) := by
  have hs : specSlope [0, 500, 1000] = .fin (1 / 500) := by
    norm_num [specSlope, sumX, sumXX, sumXY, sxyAux, F.div]
  refine ⟨?_, ?_, ?_⟩
  · norm_num [simple_regression, enumerate, regStep, F.div, F.mul]
  · rw [hs]
    norm_num [F.div]
  · rw [hs]
    norm_num [simple_regression, enumerate, regStep, F.div, F.mul]

/-- C1 amended: for every offsets sequence of length at least 2,
`simple_regression` computes the slope
`(Σ i*x_i − n·mean_x·mean_y) / (Σ x_i² − n·mean_x²)` — which is in beats
per millisecond — and returns BPM equal to `60000` multiplied by that
slope. -/
theorem C1_regression_slope (xs : List ℕ) (h : 2 ≤ xs.length) :
    simple_regression xs = .ok ((specSlope xs).mul (.fin 60000)) :=
  simple_regression_eq_spec h

/-- C1 witness: the amended theorem applied to `[0, 500, 1000]`. -/
theorem C1_witness :
    simple_regression [0, 500, 1000] = .ok ((specSlope [0, 500, 1000]).mul (.fin 60000)) :=
  C1_regression_slope [0, 500, 1000] (by norm_num)

/-- C2 counterexample: on offsets `[0, 500, 1000, 2000]` the six sorted
pairwise slopes have the two median candidates `3/2000` (index 2) and
`1/500` (index 3 = count/2); the code returns `60000` times the element at
index `count/2`, namely `Ok 120`, which is the upper-middle candidate and
differs from the lower-middle result `90` that the claim names. -/
theorem C2_counterexample :
    (slopesOf [0, 500, 1000, 2000]).length = 6 ∧
    (sortedSlopes [0, 500, 1000, 2000]).getD 2 .nan = .fin (3 / 2000) ∧
    (sortedSlopes [0, 500, 1000, 2000]).getD 3 .nan = .fin (1 / 500) ∧
    thiel_sen [0, 500, 1000, 2000] = .ok (.fin 120) ∧
    ((sortedSlopes [0, 500, 1000, 2000]).getD 2 .nan).mul (.fin 60000) = .fin 90 ∧
    (BpmResult.ok (.fin 120) : BpmResult) ≠ .ok (.fin 90) := by
  refine ⟨?_, ?_, ?_, ?_, ?_, by norm_num⟩ <;>
    norm_num [thiel_sen, sortedSlopes, slopesOf, enumerate, tupleCombinations,
      F.div, F.mul, List.insertionSort, List.orderedInsert, Fle, fle]

/-- C2 amended: for every offsets sequence of length at least 2 whose
pairwise slope count is even, `thiel_sen` returns `60000` times the single
element at 0-based index `count/2` of the slopes ordered by value — the
upper-middle of the two median candidates — and does not average the two
central values. -/
theorem C2_even_median (xs : List ℕ) (h2 : 2 ≤ xs.length)
    (heven : (slopesOf xs).length % 2 = 0) :
    thiel_sen xs =
      .ok (((sortedSlopes xs).getD ((slopesOf xs).length / 2) .nan).mul (.fin 60000)) :=
  thiel_sen_eq h2

/-- C2 witness: the amended theorem applied to `[0, 500, 1000, 2000]`,
whose slope count 6 is even. -/
theorem C2_witness :
    thiel_sen [0, 500, 1000, 2000] =
      .ok (((sortedSlopes [0, 500, 1000, 2000]).getD
        ((slopesOf [0, 500, 1000, 2000]).length / 2) .nan).mul (.fin 60000)) :=
  C2_even_median [0, 500, 1000, 2000] (by norm_num)
    (by norm_num [slopesOf, enumerate, tupleCombinations])

/-- C3 counterexample: on offsets `[0, 500, 1000, 2000]`, `direct_count`
does return `90.00`, but `thiel_sen` returns exactly `120.00`, which is
not strictly between `90.00` and `120.00`. -/
theorem C3_counterexample :
    direct_count [0, 500, 1000, 2000] = .ok (.fin 90) ∧
    thiel_sen [0, 500, 1000, 2000] = .ok (.fin 120) ∧
    ¬ ((90 : ℚ) < 120 ∧ (120 : ℚ) < 120) := by
  refine ⟨?_, ?_, by norm_num⟩
  · norm_num [direct_count, F.div]
  · norm_num [thiel_sen, sortedSlopes, slopesOf, enumerate, tupleCombinations,
      F.div, F.mul, List.insertionSort, List.orderedInsert, Fle, fle]

/-- C3 amended: on offsets `[0, 500, 1000, 2000]`, `direct_count` returns
`90.00`, `thiel_sen` returns exactly `120.00` (the top of the claimed
interval, not its interior), `simple_regression` returns `624/7 ≈ 89.14`,
and `thiel_sen` is closer to `120.00` than `simple_regression` is. -/
theorem C3_late_tap_scenario :
    direct_count [0, 500, 1000, 2000] = .ok (.fin 90) ∧
    thiel_sen [0, 500, 1000, 2000] = .ok (.fin 120) ∧
    simple_regression [0, 500, 1000, 2000] = .ok (.fin (624 / 7)) ∧
    (90 : ℚ) ≤ 120 ∧ (120 : ℚ) ≤ 120 ∧
    |(120 : ℚ) - 120| < |(624 / 7 : ℚ) - 120| := by
  refine ⟨?_, ?_, ?_, by norm_num, by norm_num, by rw [abs_sub_comm]; norm_num [abs_of_pos]⟩
  · norm_num [direct_count, F.div]
  · norm_num [thiel_sen, sortedSlopes, slopesOf, enumerate, tupleCombinations,
      F.div, F.mul, List.insertionSort, List.orderedInsert, Fle, fle]
  · norm_num [simple_regression, enumerate, regStep, F.div, F.mul]

/-- C4: with fewer than two offsets all three estimators return the
`InsufficientData` error; with at least two they all return `Ok` values;
and `InsufficientData` is the only error kind any of them can return. -/
theorem C4_insufficient_data (xs : List ℕ) :
    (xs.length < 2 →
      direct_count xs = .error .insufficientData ∧
      simple_regression xs = .error .insufficientData ∧
      thiel_sen xs = .error .insufficientData) ∧
    (2 ≤ xs.length →
      (∃ u, direct_count xs = .ok u) ∧
      (∃ v, simple_regression xs = .ok v) ∧
      (∃ w, thiel_sen xs = .ok w)) ∧
    (∀ e, direct_count xs = .error e → e = .insufficientData) ∧
    (∀ e, simple_regression xs = .error e → e = .insufficientData) ∧
    (∀ e, thiel_sen xs = .error e → e = .insufficientData) := by
  refine ⟨?_, ?_, ?_, ?_, ?_⟩
  · intro h
    exact ⟨by simp only [direct_count, if_pos h],
           by simp only [simple_regression, if_pos h],
           by simp only [thiel_sen, if_pos h]⟩
  · intro h
    have h' : ¬ xs.length < 2 := by omega
    refine ⟨?_, ?_, ?_⟩
    · rcases hdc : direct_count xs with u | e
      · exact ⟨u, rfl⟩
      · simp [direct_count, if_neg h'] at hdc
    · rcases hdc : simple_regression xs with u | e
      · exact ⟨u, rfl⟩
      · simp [simple_regression, if_neg h'] at hdc
    · rcases hdc : thiel_sen xs with u | e
      · exact ⟨u, rfl⟩
      · simp [thiel_sen, if_neg h'] at hdc
  · intro e _; cases e; rfl
  · intro e _; cases e; rfl
  · intro e _; cases e; rfl

/-- C4 witness: one offset gives the error, two offsets give a value. -/
theorem C4_witness :
    direct_count [100] = .error .insufficientData ∧
    (∃ u, direct_count [0, 500] = .ok u) :=
  ⟨((C4_insufficient_data [100]).1 (by norm_num)).1,
   ((C4_insufficient_data [0, 500]).2.1 (by norm_num)).1⟩

lemma slopes_regular {d n : ℕ} (hd : 0 < d) {s : F} (hs : s ∈ slopesOf (regular d n)) :
    s = .fin (1 / d) := by
  obtain ⟨i, j, a, b, hij, ha, hb, rfl⟩ := mem_slopesOf.1 hs
  rw [getElem?_regular] at ha hb
  have hi : i < n := by by_contra h; simp [h] at ha
  have hj : j < n := by by_contra h; simp [h] at hb
  rw [if_pos hi] at ha
  rw [if_pos hj] at hb
  obtain rfl : i * d = a := Option.some.inj ha
  obtain rfl : j * d = b := Option.some.inj hb
  rw [show j * d - i * d = (j - i) * d from (Nat.sub_mul j i d).symm]
  have hji : 0 < j - i := by omega
  have hden : (((j - i) * d : ℕ) : ℚ) ≠ 0 :=
    Nat.cast_ne_zero.2 (Nat.mul_ne_zero (by omega) (by omega))
  have hjiq : ((j - i : ℕ) : ℚ) ≠ 0 := Nat.cast_ne_zero.2 (by omega)
  have hdq : (d : ℚ) ≠ 0 := Nat.cast_ne_zero.2 (by omega)
  rw [F.div_fin_fin hden]
  congr 1
  rw [Nat.cast_mul]
  field_simp

/-- C6: on the perfectly regular offsets `[0, d, 2d, …, (n-1)d]` with
`d > 0` and `n ≥ 2`, all three estimators return exactly `60000 / d` BPM. -/
theorem C6_regular_taps (d n : ℕ) (hd : 0 < d) (hn : 2 ≤ n) :
    direct_count (regular d n) = .ok (.fin (60000 / d)) ∧
    simple_regression (regular d n) = .ok (.fin (60000 / d)) ∧
    thiel_sen (regular d n) = .ok (.fin (60000 / d)) := by
  have hlen : (regular d n).length = n := length_regular d n
  have h2 : 2 ≤ (regular d n).length := by rw [hlen]; exact hn
  have hdq : (d : ℚ) ≠ 0 := Nat.cast_ne_zero.2 (by omega)
  refine ⟨?_, ?_, ?_⟩
  · obtain ⟨m, rfl⟩ : ∃ m, n = m + 2 := ⟨n - 2, by omega⟩
    have h' : ¬ (regular d (m + 2)).length < 2 := by omega
    have hm1 : ((m + 1 : ℕ) : ℚ) ≠ 0 := Nat.cast_ne_zero.2 (by omega)
    have hden : (((m + 1) * d : ℕ) : ℚ) ≠ 0 :=
      Nat.cast_ne_zero.2 (Nat.mul_ne_zero (by omega) (by omega))
    simp only [direct_count, if_neg h', head_regular d (m + 2) (by omega),
      getLast_regular d (m + 2) (by omega), hlen, Nat.sub_zero,
      show (m + 2) - 1 = m + 1 from by omega]
    rw [F.div_fin_fin hden]
    rw [Nat.cast_mul]
    field_simp
    ring
  · rw [simple_regression_eq_spec h2, specSlope_regular hd hn, F.mul_fin_fin]
    rw [div_mul_eq_mul_div, one_mul]
  · have hmid : (slopesOf (regular d n)).length / 2 < (sortedSlopes (regular d n)).length := by
      rw [length_sortedSlopes]
      exact Nat.div_lt_self (List.length_pos.2 (slopesOf_ne_nil h2)) one_lt_two
    have hmed : (sortedSlopes (regular d n)).getD
        ((slopesOf (regular d n)).length / 2) .nan = .fin (1 / d) := by
      apply getD_eq_of_all_eq _ hmid
      intro s hsm
      exact slopes_regular hd (mem_sortedSlopes.1 hsm)
    rw [thiel_sen_eq h2, hmed, F.mul_fin_fin]
    congr 2
    rw [div_mul_eq_mul_div, one_mul]

/-- C6 witness: at `d = 500`, `n = 4` all three estimators return
`60000 / 500 = 120` BPM. -/
theorem C6_witness :
    direct_count (regular 500 4) = .ok (.fin (60000 / 500)) ∧
    simple_regression (regular 500 4) = .ok (.fin (60000 / 500)) ∧
    thiel_sen (regular 500 4) = .ok (.fin (60000 / 500)) :=
  C6_regular_taps 500 4 (by norm_num) (by norm_num)

/-- C7: from the empty session, any interleaving of taps with
non-decreasing absolute times and of origin-clearing timeouts yields a
state whose offsets are non-decreasing, start with 0 whenever the origin
is set, and are empty only if no tap was ever recorded. -/
theorem C7_session_invariant (tr : List Ev)
    (hvalid : List.Chain' (· ≤ ·) (recordTimes tr)) :
    List.Chain' (· ≤ ·) (runFrom TapData.empty tr).timestamps ∧
    (∀ s, (runFrom TapData.empty tr).start = some s →
      (runFrom TapData.empty tr).timestamps.head? = some 0) ∧
    ((runFrom TapData.empty tr).timestamps = [] → recordTimes tr = []) := by
  have hinv : SessionInv (runFrom TapData.empty tr) (lastTime none tr) := by
    apply runFrom_inv tr TapData.empty none
    · exact ⟨List.chain'_nil, by intro s h; simp [TapData.empty] at h⟩
    · exact hvalid
  obtain ⟨hchain, hstart⟩ := hinv
  refine ⟨hchain, ?_, recordTimes_nil_of_empty tr _⟩
  intro s hs
  obtain ⟨l, _, _, hh, _⟩ := hstart s hs
  exact hh

/-- C7 witness: the invariant at the concrete trace
record 10, record 25, timeout, record 100. -/
theorem C7_witness :
    List.Chain' (· ≤ ·)
      (runFrom TapData.empty [.record 10, .record 25, .clear, .record 100]).timestamps ∧
    (runFrom TapData.empty [.record 10, .record 25, .clear, .record 100]).timestamps.head? =
      some 0 := by
  have h := C7_session_invariant [.record 10, .record 25, .clear, .record 100]
    (by norm_num [recordTimes])
  exact ⟨h.1, h.2.1 100 rfl⟩

/-- C8: from the empty session, `record t0` yields offsets `[0]`; a second
`record t1` with `t1 > t0` yields `[0, t1 - t0]`; clearing the origin
yields `just_reset = true` with offsets unchanged; a further `record t2`
yields `[0]` again with `just_reset = false`. -/
theorem C8_session_transitions (t0 t1 t2 : ℕ) (h : t0 < t1) :
    (TapData.empty.record t0).timestamps = [0] ∧
    ((TapData.empty.record t0).record t1).timestamps = [0, t1 - t0] ∧
    (((TapData.empty.record t0).record t1).clear_origin).is_reset = true ∧
    (((TapData.empty.record t0).record t1).clear_origin).timestamps =
      ((TapData.empty.record t0).record t1).timestamps ∧
    ((((TapData.empty.record t0).record t1).clear_origin).record t2).timestamps = [0] ∧
    ((((TapData.empty.record t0).record t1).clear_origin).record t2).is_reset = false := by
  simp [TapData.empty, TapData.record, TapData.clear_origin, TapData.is_reset]

/-- C8 witness: the transition chain at `t0 = 3`, `t1 = 10`, `t2 = 4000`. -/
theorem C8_witness :
    ((TapData.empty.record 3).record 10).timestamps = [0, 10 - 3] ∧
    ((((TapData.empty.record 3).record 10).clear_origin).record 4000).timestamps = [0] :=
  ⟨(C8_session_transitions 3 10 4000 (by norm_num)).2.1,
   (C8_session_transitions 3 10 4000 (by norm_num)).2.2.2.2.1⟩

/-- C9: `direct_count` depends only on the length, the first element and
the last element of the offsets: two sequences of the same length that
agree on both endpoints get identical results. -/
theorem C9_endpoints_only (xs ys : List ℕ)
    (hlen : xs.length = ys.length) (h2 : 2 ≤ xs.length)
    (hhead : xs.head? = ys.head?) (hlast : xs.getLast? = ys.getLast?) :
    direct_count xs = direct_count ys := by
  have h1 : xs.headD 0 = ys.headD 0 := by
    rw [List.headD_eq_head?, List.headD_eq_head?, hhead]
  have hl : xs.getLastD 0 = ys.getLastD 0 := by
    rw [List.getLastD_eq_getLast?, List.getLastD_eq_getLast?, hlast]
  simp only [direct_count, hlen, h1, hl]

/-- C9 witness: two sequences differing only in the interior get the same
direct-count result. -/
theorem C9_witness : direct_count [0, 7, 100] = direct_count [0, 50, 100] :=
  C9_endpoints_only [0, 7, 100] [0, 50, 100] rfl (by norm_num) rfl rfl

/-- C10: on a non-decreasing offsets sequence of length at least 2, every
pairwise slope of `thiel_sen` is a positive rational or positive infinity
(numerator `j - i ≥ 1`, denominator non-negative), and the returned BPM is
itself positive or positive infinity, never `nan`. -/
theorem C10_positive_slopes (xs : List ℕ) (hchain : List.Chain' (· ≤ ·) xs)
    (h2 : 2 ≤ xs.length) :
    (∀ s ∈ slopesOf xs, PosOrInf s) ∧
    ∃ v, thiel_sen xs = .ok v ∧ PosOrInf v ∧ v ≠ .nan := by
  have hpw : List.Pairwise (· ≤ ·) xs := List.chain'_iff_pairwise.1 hchain
  have hpair : ∀ s ∈ slopesOf xs, PosOrInf s := by
    intro s hs
    obtain ⟨i, j, a, b, hij, ha, hb, rfl⟩ := mem_slopesOf.1 hs
    obtain ⟨hi, ha'⟩ := List.getElem?_eq_some.1 ha
    obtain ⟨hj, hb'⟩ := List.getElem?_eq_some.1 hb
    have hab : a ≤ b := by
      have hrel := List.pairwise_iff_getElem.1 hpw i j hi hj hij
      rwa [ha', hb'] at hrel
    have hnum : (0 : ℚ) < ((j - i : ℕ) : ℚ) := by
      exact_mod_cast (by omega : 0 < j - i)
    by_cases hba : b - a = 0
    · right
      rw [hba, Nat.cast_zero, F.div_pos_zero hnum]
    · left
      have hbq : (0 : ℚ) < ((b - a : ℕ) : ℚ) := by
        exact_mod_cast Nat.pos_of_ne_zero hba
      rw [F.div_fin_fin hbq.ne']
      exact ⟨_, rfl, by positivity⟩
  refine ⟨hpair, _, thiel_sen_eq h2, ?_, ?_⟩
  · exact mul_posOrInf (hpair _ (median_mem_slopesOf h2))
  · exact posOrInf_ne_nan (mul_posOrInf (hpair _ (median_mem_slopesOf h2)))

/-- C10 witness: the positivity conclusions at `[0, 500, 1200]`. -/
theorem C10_witness :
    (∀ s ∈ slopesOf [0, 500, 1200], PosOrInf s) ∧
    ∃ v, thiel_sen [0, 500, 1200] = .ok v ∧ PosOrInf v ∧ v ≠ .nan :=
  C10_positive_slopes [0, 500, 1200] (by norm_num [List.chain'_cons]) (by norm_num)

/-- C5 counterexample: `[0, 0, 1000, 2000]` has an identical pair of
offsets (indices 0 and 1), yet `thiel_sen` returns the finite value
`Ok 90`, not a non-finite one: the infinite pairwise slope exists but the
median does not land on it. -/
theorem C5_counterexample :
    ([0, 0, 1000, 2000] : List ℕ)[0]? = some 0 ∧
    ([0, 0, 1000, 2000] : List ℕ)[1]? = some 0 ∧
    thiel_sen [0, 0, 1000, 2000] = .ok (.fin 90) ∧
    F.fin 90 ≠ .posInf ∧ F.fin 90 ≠ .negInf ∧ F.fin 90 ≠ .nan := by
  refine ⟨rfl, rfl, ?_, by simp, by simp, by simp⟩
  norm_num [thiel_sen, sortedSlopes, slopesOf, enumerate, tupleCombinations,
    F.div, F.mul, List.insertionSort, List.orderedInsert, Fle, fle]

/-- C5 amended: degenerate inputs still give `Ok`, never an error:
`direct_count` on zero elapsed time (last offset equal to the first)
returns `Ok +∞`; `simple_regression` on all-identical offsets returns
`Ok nan`; in `thiel_sen` an identical pair at positions `i < j` puts the
infinite pairwise slope — unfiltered — into the median computation and
the result is still `Ok`, though it is non-finite only when the median
lands on such a slope, as it does when all offsets are identical. -/
theorem C5_degenerate :
    (∀ xs : List ℕ, 2 ≤ xs.length → xs.head? = xs.getLast? →
      direct_count xs = .ok .posInf) ∧
    (∀ n c : ℕ, 2 ≤ n → simple_regression (List.replicate n c) = .ok .nan) ∧
    (∀ (xs : List ℕ) (i j a : ℕ), i < j → xs[i]? = some a → xs[j]? = some a →
      F.posInf ∈ slopesOf xs ∧ ∃ v, thiel_sen xs = .ok v) ∧
    (∀ n c : ℕ, 2 ≤ n → thiel_sen (List.replicate n c) = .ok .posInf) := by
  refine ⟨?_, ?_, ?_, ?_⟩
  · intro xs h2 hfl
    have h' : ¬ xs.length < 2 := by omega
    have heq : xs.getLastD 0 - xs.headD 0 = 0 := by
      rw [List.getLastD_eq_getLast?, List.headD_eq_head?, hfl]
      exact Nat.sub_self _
    have hpos : (0 : ℚ) < ((xs.length - 1 : ℕ) : ℚ) * 60000 := by
      have h1 : (0 : ℚ) < ((xs.length - 1 : ℕ) : ℚ) := by
        exact_mod_cast (by omega : 0 < xs.length - 1)
      exact mul_pos h1 (by norm_num)
    simp only [direct_count, if_neg h', heq, Nat.cast_zero]
    rw [F.div_pos_zero hpos]
  · intro n c hn
    have h2 : 2 ≤ (List.replicate n c).length := by simpa using hn
    rw [simple_regression_eq_spec h2]
    have hs : specSlope (List.replicate n c) = .nan := by
      have hn0 : (n : ℚ) ≠ 0 := Nat.cast_ne_zero.2 (by omega)
      simp only [specSlope, List.length_replicate, sumX_replicate, sumXX_replicate,
        sumXY, sxyAux_replicate, Nat.cast_zero, zero_mul, zero_add]
      convert F.div_zero_zero using 3
      · push_cast
        field_simp
        ring
      · push_cast
        field_simp
        ring
    rw [hs, F.mul_nan_fin]
  · intro xs i j a hij ha hb
    have hj : j < xs.length := (List.getElem?_eq_some.1 hb).1
    have hlen : 2 ≤ xs.length := by omega
    have hnum : (0 : ℚ) < ((j - i : ℕ) : ℚ) := by
      exact_mod_cast (by omega : 0 < j - i)
    refine ⟨?_, _, thiel_sen_eq hlen⟩
    apply mem_slopesOf.2 ⟨i, j, a, a, hij, ha, hb, ?_⟩
    rw [Nat.sub_self, Nat.cast_zero, F.div_pos_zero hnum]
  · intro n c hn
    have h2 : 2 ≤ (List.replicate n c).length := by simpa using hn
    have hall : ∀ s ∈ sortedSlopes (List.replicate n c), s = F.posInf := by
      intro s hsm
      obtain ⟨i, j, a, b, hij, ha, hb, rfl⟩ := mem_slopesOf.1 (mem_sortedSlopes.1 hsm)
      rw [List.getElem?_replicate] at ha hb
      have hi : i < n := by by_contra hc; simp [hc] at ha
      have hj : j < n := by by_contra hc; simp [hc] at hb
      rw [if_pos hi] at ha
      rw [if_pos hj] at hb
      obtain rfl : c = a := Option.some.inj ha
      obtain rfl : c = b := Option.some.inj hb
      have hnum : (0 : ℚ) < ((j - i : ℕ) : ℚ) := by
        exact_mod_cast (by omega : 0 < j - i)
      rw [Nat.sub_self, Nat.cast_zero, F.div_pos_zero hnum]
    have hmid : (slopesOf (List.replicate n c)).length / 2 <
        (sortedSlopes (List.replicate n c)).length := by
      rw [length_sortedSlopes]
      exact Nat.div_lt_self (List.length_pos.2 (slopesOf_ne_nil h2)) one_lt_two
    rw [thiel_sen_eq h2, getD_eq_of_all_eq hall hmid, F.mul_posInf_60000]

/-- C5 witness: the amended statement at concrete degenerate inputs. -/
theorem C5_witness :
    direct_count [5, 3, 5] = .ok .posInf ∧
    simple_regression (List.replicate 3 7) = .ok .nan ∧
    F.posInf ∈ slopesOf [2, 2, 9] ∧
    thiel_sen (List.replicate 2 9) = .ok .posInf :=
  ⟨C5_degenerate.1 [5, 3, 5] (by norm_num) rfl,
   C5_degenerate.2.1 3 7 (by norm_num),
   (C5_degenerate.2.2.1 [2, 2, 9] 0 1 2 (by norm_num) rfl rfl).1,
   C5_degenerate.2.2.2 2 9 (by norm_num)⟩
